import Mathlib

/-!
Verification of the go-spring/log logging library against its
natural-language specification.

The Go sources are shallowly embedded: Go strings are modelled as
`List Char` (the strings manipulated here are ASCII, where Go's
byte-wise and rune-wise views agree; the one place where raw bytes
matter, JSON string escaping, is modelled over `List Nat` byte lists),
Go maps used as registries are modelled as association lists or
functions, and the mutable global state of the refresh coordinator is
modelled by explicit state passing.  Each definition carries a comment
naming the Go function it embeds.
-/

namespace GoSpringLog

/-- Shorthand turning a string literal into the `List Char` model of a Go string. -/
def cs (s : String) : List Char := s.toList

/-- Model of the byte/character class test used by Go `unicode.IsSpace`
for the Latin-1 range (space, tab, newline, vertical tab, form feed,
carriage return, NEL, NBSP).  `strings.TrimSpace` trims exactly these
characters on ASCII/Latin-1 input. -/
def isSpaceGo (c : Char) : Bool :=
  c = ' ' || c = '\t' || c = '\n' || c = (Char.ofNat 11) || c = (Char.ofNat 12) ||
  c = '\r' || c = (Char.ofNat 0x85) || c = (Char.ofNat 0xA0)

/-- Model of Go `strings.TrimSpace`: drop leading and trailing whitespace. -/
def trimSpaceGo (l : List Char) : List Char :=
  ((l.dropWhile isSpaceGo).reverse.dropWhile isSpaceGo).reverse

/-- ASCII upper-casing of one character; model of Go `unicode.ToUpper`
restricted to ASCII (all registered level names are ASCII). -/
def toUpperChar (c : Char) : Char :=
  if 'a' ≤ c && c ≤ 'z' then Char.ofNat (c.toNat - 32) else c

/-- Model of Go `strings.ToUpper` on ASCII strings. -/
def toUpperGo (l : List Char) : List Char := l.map toUpperChar

/-- Model of Go `strings.Split(s, sep)` for a one-character separator:
splits around every occurrence of `sep`; the result is always non-empty. -/
def splitOnChar (sep : Char) : List Char → List (List Char)
  | [] => [[]]
  | c :: rest =>
    if c = sep then [] :: splitOnChar sep rest
    else
      match splitOnChar sep rest with
      | [] => [[c]]
      | s :: ss => (c :: s) :: ss

/-- Model of Go `strings.TrimPrefix(s, p)` for a one-character prefix
string: removes one leading occurrence of `p` if present. -/
def trimPrefixOne (l : List Char) (c : Char) : List Char :=
  match l with
  | [] => []
  | x :: rest => if x = c then rest else x :: rest

/-- Model of Go `strings.TrimSuffix(s, p)` for a one-character suffix
string: removes one trailing occurrence of `p` if present. -/
def trimSuffixOne (l : List Char) (c : Char) : List Char :=
  if l.getLast? = some c then l.dropLast else l

/-- Model of Go `strings.CutSuffix(s, suffix)` (value part only):
removes `suffix` once if `s` ends with it, otherwise returns `s`. -/
def cutSuffixGo (l suffix : List Char) : List Char :=
  if suffix.isSuffixOf l then l.take (l.length - suffix.length) else l

/-- Model of Go `strings.LastIndex(s, "_")` for the one-character
pattern `'_'`: the largest index holding `c`, or `none` when absent
(Go returns `-1` there). -/
def lastIndexOfChar (c : Char) (l : List Char) : Option Nat :=
  match l with
  | [] => none
  | x :: rest =>
    match lastIndexOfChar c rest with
    | some i => some (i + 1)
    | none => if x = c then some 0 else none

/-! ### Levels (`part_004`, `Level` / `LevelRange` / `ParseLevelRange`) -/

/-- Embeds Go `type Level struct { code int32; name string }`.
Codes of the registered levels stay far from the int32 bounds, so the
`int32` arithmetic (comparisons only, no wrap-around) is modelled by `Int`. -/
structure Level where
  code : Int
  name : List Char
  deriving DecidableEq, Repr

/-- `NoneLevel = RegisterLevel(0, "NONE")`. -/
def NoneLevel : Level := ⟨0, cs "NONE"⟩

/-- `TraceLevel = RegisterLevel(100, "TRACE")`. -/
def TraceLevel : Level := ⟨100, cs "TRACE"⟩

/-- `DebugLevel = RegisterLevel(200, "DEBUG")`. -/
def DebugLevel : Level := ⟨200, cs "DEBUG"⟩

/-- `InfoLevel = RegisterLevel(300, "INFO")`. -/
def InfoLevel : Level := ⟨300, cs "INFO"⟩

/-- `WarnLevel = RegisterLevel(400, "WARN")`. -/
def WarnLevel : Level := ⟨400, cs "WARN"⟩

/-- `ErrorLevel = RegisterLevel(500, "ERROR")`. -/
def ErrorLevel : Level := ⟨500, cs "ERROR"⟩

/-- `PanicLevel = RegisterLevel(600, "PANIC")`. -/
def PanicLevel : Level := ⟨600, cs "PANIC"⟩

/-- `FatalLevel = RegisterLevel(700, "FATAL")`. -/
def FatalLevel : Level := ⟨700, cs "FATAL"⟩

/-- `MaxLevel = RegisterLevel(999, "MAX")`. -/
def MaxLevel : Level := ⟨999, cs "MAX"⟩

/-- The global `levelRegistry` map after the nine `RegisterLevel` calls
in `part_004` have run (keys are the upper-cased names). -/
def levelRegistry : List (List Char × Level) :=
  [(cs "NONE", NoneLevel), (cs "TRACE", TraceLevel), (cs "DEBUG", DebugLevel),
   (cs "INFO", InfoLevel), (cs "WARN", WarnLevel), (cs "ERROR", ErrorLevel),
   (cs "PANIC", PanicLevel), (cs "FATAL", FatalLevel), (cs "MAX", MaxLevel)]

/-- Map lookup `levelRegistry[name]`. -/
def lookupLevel (s : List Char) : Option Level :=
  (levelRegistry.find? (fun p => p.1 = s)).map Prod.snd

/-- Embeds Go `type LevelRange struct { MinLevel, MaxLevel Level }`. -/
structure LevelRange where
  MinLevel : Level
  MaxLevel : Level
  deriving DecidableEq, Repr

/-- Embeds `LevelRange.Enable`:
`l.code >= c.MinLevel.code && l.code < c.MaxLevel.code`. -/
def LevelRange.Enable (c : LevelRange) (l : Level) : Bool :=
  c.MinLevel.code ≤ l.code && l.code < c.MaxLevel.code

/-- Embeds `ParseLevelRange` (`part_004`): trim; empty means
`[NONE, MAX)`; otherwise split on `~`, look the first part up after
upper-casing, and when the split has exactly two parts look the second
part up as the upper bound (otherwise the upper bound stays `MAX`). -/
def ParseLevelRange (s : List Char) : Except (List Char) LevelRange :=
  let t := trimSpaceGo s
  if t = [] then
    .ok ⟨NoneLevel, MaxLevel⟩
  else
    let ss := splitOnChar '~' t
    match lookupLevel (toUpperGo (ss.headD [])) with
    | none => .error (cs "invalid log level: " ++ ss.headD [])
    | some minL =>
      if ss.length = 2 then
        match lookupLevel (toUpperGo (ss.getD 1 [])) with
        | none => .error (cs "invalid log level: " ++ ss.getD 1 [])
        | some maxL => .ok ⟨minL, maxL⟩
      else
        .ok ⟨minL, MaxLevel⟩

/-- `true` exactly on the `Except.error` constructor. -/
def isError {ε α : Type} : Except ε α → Bool
  | .error _ => true
  | .ok _ => false

instance {ε α : Type} [DecidableEq ε] [DecidableEq α] : DecidableEq (Except ε α) := fun x y =>
  match x, y with
  | .ok a, .ok b =>
    if h : a = b then .isTrue (by rw [h]) else .isFalse (by intro hc; cases hc; exact h rfl)
  | .error a, .error b =>
    if h : a = b then .isTrue (by rw [h]) else .isFalse (by intro hc; cases hc; exact h rfl)
  | .ok _, .error _ => .isFalse (by intro hc; cases hc)
  | .error _, .ok _ => .isFalse (by intro hc; cases hc)

/-! ### Tag validation (`log_tag.go`, `isValidTag`) -/

/-- The character class accepted by `isValidTag`:
`c >= 'a' && c <= 'z'`, `c >= '0' && c <= '9'`, or `c == '_'`. -/
def isTagChar (c : Char) : Bool :=
  ('a' ≤ c && c ≤ 'z') || ('0' ≤ c && c ≤ '9') || c = '_'

/-- Embeds `isValidTag` (`log_tag.go`): length 3..36; all characters in
`[a-z0-9_]`; splitting on `_` after trimming one leading `_` gives 1..4
segments none of which is empty.  The Go loop with early `return false`
is expressed with `List.all`.  All accepted characters are ASCII, so the
byte-wise length and indexing of the Go code agree with this
character-list model. -/
def isValidTag (tag : List Char) : Bool :=
  if tag.length < 3 || tag.length > 36 then false
  else if !(tag.all isTagChar) then false
  else
    let ss := splitOnChar '_' (trimPrefixOne tag '_')
    if ss.length < 1 || ss.length > 4 then false
    else !(ss.contains [])

example : isValidTag (cs "_def") = true := by decide
example : isValidTag (cs "service_module_submodule_component00") = true := by decide
example : isValidTag (cs "ab") = false := by decide
example : isValidTag (cs "a_b_c_d_e") = false := by decide
example : isValidTag (cs "__service_component") = false := by decide
example : isValidTag (cs "service_component_") = false := by decide
example : isValidTag (cs "service__component") = false := by decide
example : isValidTag (cs "Invalid_Tag") = false := by decide

theorem splitOnChar_of_not_mem (sep : Char) (s : List Char) (h : sep ∉ s) :
    splitOnChar sep s = [s] := by
  induction s with
  | nil => rfl
  | cons c rest ih =>
    have hc : ¬ (c = sep) := fun e => h (e ▸ List.mem_cons_self c rest)
    have hrest : sep ∉ rest := fun hm => h (List.mem_cons_of_mem _ hm)
    simp [splitOnChar, hc, ih hrest]

theorem splitOnChar_append (sep : Char) (a b : List Char) (ha : sep ∉ a) :
    splitOnChar sep (a ++ sep :: b) = a :: splitOnChar sep b := by
  induction a with
  | nil => simp [splitOnChar]
  | cons c rest ih =>
    have hc : ¬ (c = sep) := fun e => ha (e ▸ List.mem_cons_self c rest)
    have hrest : sep ∉ rest := fun hm => ha (List.mem_cons_of_mem _ hm)
    simp only [List.cons_append, splitOnChar, hc, if_false]
    rw [show rest.append (sep :: b) = rest ++ sep :: b from rfl, ih hrest]

example : ParseLevelRange (cs "") = .ok ⟨NoneLevel, MaxLevel⟩ := by decide
example : ParseLevelRange (cs "  ") = .ok ⟨NoneLevel, MaxLevel⟩ := by decide
example : ParseLevelRange (cs "info") = .ok ⟨InfoLevel, MaxLevel⟩ := by decide
example : ParseLevelRange (cs "INFO~ERROR") = .ok ⟨InfoLevel, ErrorLevel⟩ := by decide
example : isError (ParseLevelRange (cs "bogus")) = true := by decide
example : isError (ParseLevelRange (cs "INFO~bogus")) = true := by decide

/-- C9: `ParseLevelRange` maps the empty (or all-whitespace) string to
`[NONE, MAX)`; a single registered level name to `[that level, MAX)`;
and a string of the form `A~B` with two registered names to `[A, B)`.
Name lookup is case-insensitive (modelled by looking up the upper-cased
name in the registry), and an unregistered name in either position
yields an error. -/
theorem C9_parseLevelRange :
    (∀ s : List Char, trimSpaceGo s = [] →
      ParseLevelRange s = .ok ⟨NoneLevel, MaxLevel⟩)
  ∧ (∀ (s name : List Char) (l : Level), trimSpaceGo s = name → name ≠ [] →
      '~' ∉ name → lookupLevel (toUpperGo name) = some l →
      ParseLevelRange s = .ok ⟨l, MaxLevel⟩)
  ∧ (∀ (s name : List Char), trimSpaceGo s = name → name ≠ [] →
      '~' ∉ name → lookupLevel (toUpperGo name) = none →
      isError (ParseLevelRange s) = true)
  ∧ (∀ (s a b : List Char) (la lb : Level), trimSpaceGo s = a ++ '~' :: b →
      '~' ∉ a → '~' ∉ b →
      lookupLevel (toUpperGo a) = some la → lookupLevel (toUpperGo b) = some lb →
      ParseLevelRange s = .ok ⟨la, lb⟩)
  ∧ (∀ (s a b : List Char), trimSpaceGo s = a ++ '~' :: b →
      '~' ∉ a → '~' ∉ b →
      (lookupLevel (toUpperGo a) = none ∨ lookupLevel (toUpperGo b) = none) →
      isError (ParseLevelRange s) = true) := by
  refine ⟨?_, ?_, ?_, ?_, ?_⟩
  · intro s h
    simp [ParseLevelRange, h]
  · intro s name l htrim hne hmem hlook
    simp only [ParseLevelRange, htrim, if_neg hne, splitOnChar_of_not_mem _ _ hmem,
      List.headD_cons, hlook, List.length_cons, List.length_nil]
    rfl
  · intro s name htrim hne hmem hlook
    simp only [ParseLevelRange, htrim, if_neg hne, splitOnChar_of_not_mem _ _ hmem,
      List.headD_cons, hlook, isError]
  · intro s a b la lb htrim ha hb hla hlb
    have hne : a ++ '~' :: b ≠ [] := by simp
    simp only [ParseLevelRange, htrim, if_neg hne, splitOnChar_append _ _ _ ha,
      splitOnChar_of_not_mem _ _ hb, List.headD_cons, hla, List.length_cons,
      List.length_nil, List.getD_cons_succ, List.getD_cons_zero, hlb]
    rfl
  · intro s a b htrim ha hb hor
    have hne : a ++ '~' :: b ≠ [] := by simp
    rcases hor with hla | hlb
    · simp only [ParseLevelRange, htrim, if_neg hne, splitOnChar_append _ _ _ ha,
        splitOnChar_of_not_mem _ _ hb, List.headD_cons, hla, isError]
    · cases hcase : lookupLevel (toUpperGo a) with
      | none =>
        simp only [ParseLevelRange, htrim, if_neg hne, splitOnChar_append _ _ _ ha,
          splitOnChar_of_not_mem _ _ hb, List.headD_cons, hcase, isError]
      | some la =>
        simp only [ParseLevelRange, htrim, if_neg hne, splitOnChar_append _ _ _ ha,
          splitOnChar_of_not_mem _ _ hb, List.headD_cons, hcase, List.length_cons,
          List.length_nil, List.getD_cons_succ, List.getD_cons_zero, hlb, isError]
        simp

/-- Witness for C9 at concrete inputs: `"info"` (lower-case, exercising
case-insensitive lookup) parses to `[INFO, MAX)`, `" WARN~error "` has a
non-trivial trim and parses to `[WARN, ERROR)`, and `"bogus"` is rejected. -/
theorem C9_parseLevelRange_witness :
    ParseLevelRange (cs "info") = .ok ⟨InfoLevel, MaxLevel⟩
  ∧ ParseLevelRange (cs " WARN~error ") = .ok ⟨WarnLevel, ErrorLevel⟩
  ∧ isError (ParseLevelRange (cs "bogus")) = true := by
  refine ⟨?_, ?_, ?_⟩
  · exact C9_parseLevelRange.2.1 (cs "info") (cs "info") InfoLevel (by decide)
      (by decide) (by decide) (by decide)
  · exact C9_parseLevelRange.2.2.2.1 (cs " WARN~error ") (cs "WARN") (cs "error")
      WarnLevel ErrorLevel (by decide) (by decide) (by decide) (by decide) (by decide)
  · exact C9_parseLevelRange.2.2.1 (cs "bogus") (cs "bogus") (by decide) (by decide)
      (by decide) (by decide)

/-- C10: `isValidTag s` is true if and only if the length of `s` is
between 3 and 36 inclusive, every character is a lowercase letter,
digit, or underscore, and splitting `s` on underscores after stripping
one leading underscore yields between 1 and 4 segments, all non-empty
(which excludes consecutive and trailing underscores). -/
theorem C10_isValidTag (t : List Char) :
    isValidTag t = true ↔
      (3 ≤ t.length ∧ t.length ≤ 36 ∧
       (∀ c ∈ t, ('a' ≤ c ∧ c ≤ 'z') ∨ ('0' ≤ c ∧ c ≤ '9') ∨ c = '_') ∧
       1 ≤ (splitOnChar '_' (trimPrefixOne t '_')).length ∧
       (splitOnChar '_' (trimPrefixOne t '_')).length ≤ 4 ∧
       (∀ seg ∈ splitOnChar '_' (trimPrefixOne t '_'), seg ≠ [])) := by
  simp only [isValidTag, isTagChar]
  split_ifs with h1 h2 h3
  · simp only [Bool.false_eq_true, false_iff]
    simp only [Bool.or_eq_true, decide_eq_true_eq] at h1
    rintro ⟨ha, hb, -⟩
    omega
  · simp only [Bool.false_eq_true, false_iff]
    simp only [Bool.not_eq_true', List.all_eq_false] at h2
    rintro ⟨-, -, hall, -⟩
    obtain ⟨c, hc, hbad⟩ := h2
    rcases hall c hc with h | h | h
    · simp [isTagChar, h.1, h.2] at hbad
    · simp [isTagChar, h.1, h.2] at hbad
    · rw [h] at hbad
      exact hbad (by decide)
  · simp only [Bool.false_eq_true, false_iff]
    simp only [Bool.or_eq_true, decide_eq_true_eq] at h3
    rintro ⟨-, -, -, hs1, hs4, -⟩
    omega
  · simp only [Bool.or_eq_true, decide_eq_true_eq, not_or, not_lt] at h1 h3
    simp only [Bool.not_eq_true', Bool.not_eq_false] at h2
    rw [List.all_eq_true] at h2
    constructor
    · intro hcont
      simp only [Bool.not_eq_true', List.contains_eq_any_beq, List.any_eq_false] at hcont
      refine ⟨by omega, by omega, ?_, by omega, by omega, ?_⟩
      · intro c hc
        have := h2 c hc
        simp only [isTagChar, Bool.or_eq_true, Bool.and_eq_true,
          decide_eq_true_eq] at this
        tauto
      · intro seg hseg he
        exact hcont seg hseg (by simp [he])
    · rintro ⟨-, -, -, -, -, hsegs⟩
      simp only [Bool.not_eq_true', List.contains_eq_any_beq, List.any_eq_false]
      intro seg hseg hbeq
      exact hsegs seg hseg (by simpa using (eq_of_beq hbeq).symm)

/-! ### Loggers (`plugin_logger.go`) -/

/-- Embeds the part of Go `Event` that the logger dispatch logic reads:
its `Level`.  The remaining payload (time, file, line, tag, fields,
context data) is never inspected by the code under verification and is
represented by an opaque identity `eid`, which also stands in for the
pointer identity used by the event pool. -/
structure Event where
  level : Level
  eid : Nat
  deriving DecidableEq, Repr

/-- Embeds Go `AppenderRef` (`plugin_logger.go`): a reference to an
appender by name together with a per-sink level range.  The resolved
`Appender` target is identified by `Ref` (after refresh an appender with
that name exists, and `AppenderRef.Write`/`Append` forward to it). -/
structure AppenderRef where
  Ref : List Char
  Level : LevelRange
  deriving DecidableEq, Repr

/-- Raw bytes. -/
abbrev Bytes := List Nat

/-- A layout is modelled as its `ToBytes` function. -/
abbrev LayoutFn := Event → Bytes

/-- Embeds `AppenderRefs.writeToAppenders`: the list of refs whose range
enables `l`, each receiving the bytes `b` through `AppenderRef.Write`
(which forwards unconditionally to the underlying appender). -/
def writeToAppenders (refs : List AppenderRef) (l : Level) (b : Bytes) :
    List (AppenderRef × Bytes) :=
  (refs.filter fun r => r.Level.Enable l).map fun r => (r, b)

/-- Embeds `AppenderRefs.sendToAppenders`: the refs whose range enables
the event level; each such ref gets `AppenderRef.Append e`, whose own
guard re-checks the same `Enable` condition and therefore forwards `e`
to the underlying appender. -/
def sendToAppenders (refs : List AppenderRef) (e : Event) : List AppenderRef :=
  refs.filter fun r => r.Level.Enable e.level

/-- The observable effect of one logger dispatch: nothing, the event
sent to appender refs via `sendToAppenders`, or one layout rendering
written to appender refs via `writeToAppenders`. -/
inductive Dispatch where
  | none
  | sent (targets : List AppenderRef) (e : Event)
  | wrote (l : Level) (deliveries : List (AppenderRef × Bytes))
  deriving Repr

/-- Result of a synchronous append: its dispatch plus the events
released back to the pool (`PutEvent`). -/
structure SyncOut where
  dispatch : Dispatch
  pooled : List Event

/-- Embeds the configuration part of `SyncLogger` (`LoggerBase` +
`AppenderRefs`): level range, optional layout, appender refs. -/
structure SyncLogger where
  Level : LevelRange
  Layout : Option LayoutFn
  AppenderRefs : List AppenderRef

/-- Embeds `SyncLogger.Append`: when the logger level range enables the
event, either send the event to the appender refs (no layout) or render
once through the layout and write the bytes with the event level; in
every case the event is returned to the pool. -/
def SyncLogger.Append (c : SyncLogger) (e : Event) : SyncOut :=
  if c.Level.Enable e.level then
    match c.Layout with
    | none => ⟨.sent (sendToAppenders c.AppenderRefs e) e, [e]⟩
    | some f => ⟨.wrote e.level (writeToAppenders c.AppenderRefs e.level (f e)), [e]⟩
  else
    ⟨.none, [e]⟩

/-- Embeds `SyncLogger.Write`: raw bytes go to the appender refs at
level `MaxLevel`. -/
def SyncLogger.Write (c : SyncLogger) (b : Bytes) : List (AppenderRef × Bytes) :=
  writeToAppenders c.AppenderRefs MaxLevel b

/-! #### `AppenderRefs.sortByLevel` (C5)

The Go method first runs `sort.Slice` with the comparator
`refs[i].Level.MinLevel.code < refs[j].Level.MinLevel.code` (an
unspecified comparison sort; modelled by insertion sort, which realises
the same contract), then walks `i` from `len-1` down to `1` setting
`refs[i-1].Level.MaxLevel = refs[i].Level.MinLevel` whenever
`refs[i-1].Level.MaxLevel == MaxLevel`.  The backward walk only ever
writes `MaxLevel` fields and only ever reads `MinLevel` fields, so it
equals the forward one-pass map `chainMaxLevels` below. -/

/-- Insert one ref into a list sorted by ascending `MinLevel.code`. -/
def insertByMin (r : AppenderRef) : List AppenderRef → List AppenderRef
  | [] => [r]
  | x :: xs =>
    if r.Level.MinLevel.code < x.Level.MinLevel.code then r :: x :: xs
    else x :: insertByMin r xs

/-- Sorting by ascending `MinLevel.code`; model of the `sort.Slice`
call in `AppenderRefs.sortByLevel`. -/
def sortRefsByMin (l : List AppenderRef) : List AppenderRef :=
  l.foldr insertByMin []

/-- The `MaxLevel`-chaining pass of `AppenderRefs.sortByLevel`: every
ref except the last whose `MaxLevel` is `MaxLevel` takes the next ref's
`MinLevel` as its new `MaxLevel`. -/
def chainMaxLevels : List AppenderRef → List AppenderRef
  | [] => []
  | [r] => [r]
  | r :: s :: rest =>
    (if r.Level.MaxLevel = MaxLevel then
      { r with Level := { r.Level with MaxLevel := s.Level.MinLevel } }
     else r) :: chainMaxLevels (s :: rest)

/-- Embeds `AppenderRefs.sortByLevel`. -/
def sortByLevel (l : List AppenderRef) : List AppenderRef :=
  chainMaxLevels (sortRefsByMin l)

/-- Non-decreasing `MinLevel.code` order. -/
def SortedByMin (l : List AppenderRef) : Prop :=
  l.Pairwise fun a b => a.Level.MinLevel.code ≤ b.Level.MinLevel.code

/-! #### Asynchronous logger (`AsyncLogger`) -/

/-- An item travelling through the async logger's bounded channel:
either a pooled event or a raw byte slice. -/
inductive AsyncItem where
  | event (e : Event)
  | bytes (b : Bytes)
  deriving DecidableEq, Repr

/-- Embeds `BufferFullPolicy`. -/
inductive BufferFullPolicy where
  | block
  | discard
  | discardOldest
  deriving DecidableEq, Repr

/-- Embeds `ParseBufferFullPolicy`. -/
def ParseBufferFullPolicy (s : List Char) : Except (List Char) BufferFullPolicy :=
  if s = cs "Block" then .ok .block
  else if s = cs "Discard" then .ok .discard
  else if s = cs "DiscardOldest" then .ok .discardOldest
  else .error (cs "invalid BufferFullPolicy")

/-- Embeds the configuration part of `AsyncLogger`. -/
structure AsyncLogger where
  Level : LevelRange
  Layout : Option LayoutFn
  AppenderRefs : List AppenderRef
  BufferSize : Nat
  BufferFullPolicy : BufferFullPolicy

/-- The mutable state of one `AsyncLogger`: the contents of the bounded
channel `buf` (head first), the `discardCounter`, and the events
returned to the pool so far (`PutEvent` calls). -/
structure AsyncState where
  queue : List AsyncItem
  discard : Nat
  pooled : List Event
  deriving DecidableEq, Repr

/-- The `BufferFullPolicyDiscardOldest` loop of `onBufferFull`: drop
items from the head of the channel until the non-blocking send
succeeds.  In Go the loop would spin forever on a zero-capacity
channel; `Start` enforces `BufferSize >= 100`, so the `queue = []` and
`BufferSize = 0` situation is unreachable, and the model leaves the
state unchanged there. -/
def discardOldestLoop (cap : Nat) (st : AsyncState) (v : AsyncItem) : AsyncState :=
  if st.queue.length < cap then
    { st with queue := st.queue ++ [v] }
  else
    match hq : st.queue with
    | [] => st
    | x :: rest =>
      discardOldestLoop cap
        { st with
          queue := rest
          discard := st.discard + 1
          pooled := st.pooled ++ (match x with | .event e => [e] | .bytes _ => []) } v
  termination_by st.queue.length
  decreasing_by rw [hq]; simp

/-- Embeds `AsyncLogger.onBufferFull`.  The `Block` arm performs a
blocking channel send; its eventual success (once the worker drains an
item) is modelled as the item ending up in the channel. -/
def AsyncLogger.onBufferFull (c : AsyncLogger) (st : AsyncState) (v : AsyncItem) :
    AsyncState :=
  match c.BufferFullPolicy with
  | .discardOldest => discardOldestLoop c.BufferSize st v
  | .block => { st with queue := st.queue ++ [v] }
  | .discard =>
    { st with
      discard := st.discard + 1
      pooled := st.pooled ++ (match v with | .event e => [e] | .bytes _ => []) }

/-- Embeds `AsyncLogger.Append`: when the level is enabled, try a
non-blocking send (which succeeds exactly when the channel is not yet
full, `queue.length < BufferSize`) and fall back to `onBufferFull`;
when the level is not enabled, just return the event to the pool. -/
def AsyncLogger.Append (c : AsyncLogger) (st : AsyncState) (e : Event) : AsyncState :=
  if c.Level.Enable e.level then
    if st.queue.length < c.BufferSize then
      { st with queue := st.queue ++ [.event e] }
    else
      c.onBufferFull st (.event e)
  else
    { st with pooled := st.pooled ++ [e] }

/-- Embeds `AsyncLogger.Write`: a non-blocking send of the byte slice,
falling back to `onBufferFull`. -/
def AsyncLogger.WriteB (c : AsyncLogger) (st : AsyncState) (b : Bytes) : AsyncState :=
  if st.queue.length < c.BufferSize then
    { st with queue := st.queue ++ [.bytes b] }
  else
    c.onBufferFull st (.bytes b)

/-- Embeds one iteration of the worker goroutine launched by
`AsyncLogger.Start` on a non-stop item: an event is dispatched exactly
like a synchronous append body (send without layout, render-and-write
with one) and then pooled; a byte slice is written to the appender refs
at level `MaxLevel`. -/
def AsyncLogger.workerStep (c : AsyncLogger) (v : AsyncItem) : Dispatch × List Event :=
  match v with
  | .event x =>
    match c.Layout with
    | none => (.sent (sendToAppenders c.AppenderRefs x) x, [x])
    | some f => (.wrote x.level (writeToAppenders c.AppenderRefs x.level (f x)), [x])
  | .bytes b => (.wrote MaxLevel (writeToAppenders c.AppenderRefs MaxLevel b), [])

/-- C2: when every appender ref of a logger has `MaxLevel` as the
exclusive upper bound of its range (the default produced by parsing an
empty level attribute, see `C9`/`ParseLevelRange`), the raw-byte path
`SyncLogger.Write` and the byte-slice branch of the `AsyncLogger`
worker deliver the bytes to no appender ref: both call
`writeToAppenders` with level `MaxLevel`, and `LevelRange.Enable`
applied to `MaxLevel` is false whenever the range's upper bound is
`MaxLevel` (`999 < 999` fails), so bytes published through a
`LoggerWrapper` are silently dropped. -/
theorem C2_rawBytesDropped :
    (∀ rng : LevelRange, rng.MaxLevel = MaxLevel → rng.Enable MaxLevel = false)
  ∧ (∀ (c : SyncLogger) (b : Bytes),
      (∀ r ∈ c.AppenderRefs, r.Level.MaxLevel = MaxLevel) → c.Write b = [])
  ∧ (∀ (c : AsyncLogger) (b : Bytes),
      (∀ r ∈ c.AppenderRefs, r.Level.MaxLevel = MaxLevel) →
      c.workerStep (.bytes b) = (.wrote MaxLevel [], [])) := by
  have hEnable : ∀ rng : LevelRange, rng.MaxLevel = MaxLevel →
      rng.Enable MaxLevel = false := by
    intro rng h
    simp [LevelRange.Enable, h, MaxLevel]
  have hFilter : ∀ (refs : List AppenderRef) (b : Bytes),
      (∀ r ∈ refs, r.Level.MaxLevel = MaxLevel) →
      writeToAppenders refs MaxLevel b = [] := by
    intro refs b h
    simp only [writeToAppenders]
    rw [List.filter_eq_nil_iff.mpr]
    · rfl
    · intro r hr
      simp [hEnable r.Level (h r hr)]
  refine ⟨hEnable, ?_, ?_⟩
  · intro c b h
    exact hFilter c.AppenderRefs b h
  · intro c b h
    simp only [AsyncLogger.workerStep, hFilter c.AppenderRefs b h]

/-- Witness for C2: a sync and an async logger with one appender ref
whose range is the parse of the empty level attribute (`[NONE, MAX)`);
raw bytes reach no ref. -/
theorem C2_rawBytesDropped_witness :
    SyncLogger.Write
      ⟨⟨NoneLevel, MaxLevel⟩, none, [⟨cs "console", ⟨NoneLevel, MaxLevel⟩⟩]⟩ [104, 105] = []
  ∧ AsyncLogger.workerStep
      ⟨⟨NoneLevel, MaxLevel⟩, none, [⟨cs "console", ⟨NoneLevel, MaxLevel⟩⟩], 10000, .discard⟩
      (.bytes [104, 105]) = (.wrote MaxLevel [], []) := by
  constructor
  · exact C2_rawBytesDropped.2.1
      ⟨⟨NoneLevel, MaxLevel⟩, none, [⟨cs "console", ⟨NoneLevel, MaxLevel⟩⟩]⟩ [104, 105]
      (by intro r hr; simp at hr; rw [hr])
  · exact C2_rawBytesDropped.2.2
      ⟨⟨NoneLevel, MaxLevel⟩, none, [⟨cs "console", ⟨NoneLevel, MaxLevel⟩⟩], 10000, .discard⟩
      [104, 105] (by intro r hr; simp at hr; rw [hr])

/-- C6: for every async logger with buffer-full policy `Discard`, when
`Append` or `Write` finds the bounded channel full, the new item is not
enqueued, `discardCounter` grows by exactly one, the event (when the
item is an event) is returned to the pool, and the contents and order
of the channel are unchanged (the result state carries `st.queue`
verbatim). -/
theorem C6_discardOnFull (c : AsyncLogger) (st : AsyncState) (e : Event) (b : Bytes)
    (hp : c.BufferFullPolicy = .discard)
    (hfull : c.BufferSize ≤ st.queue.length) :
    (c.Level.Enable e.level = true →
      c.Append st e =
        { st with discard := st.discard + 1, pooled := st.pooled ++ [e] })
  ∧ c.WriteB st b = { st with discard := st.discard + 1 } := by
  have hlt : ¬ st.queue.length < c.BufferSize := by omega
  constructor
  · intro hen
    simp [AsyncLogger.Append, hen, hlt, AsyncLogger.onBufferFull, hp]
  · simp [AsyncLogger.WriteB, hlt, AsyncLogger.onBufferFull, hp]

/-- Witness for C6: a concrete Discard-policy logger with a full
100-slot channel; both the event path and the byte path discard. -/
theorem C6_discardOnFull_witness :
    AsyncLogger.Append
      ⟨⟨NoneLevel, MaxLevel⟩, none, [], 100, .discard⟩
      ⟨List.replicate 100 (.bytes []), 3, []⟩ ⟨InfoLevel, 7⟩ =
      ⟨List.replicate 100 (.bytes []), 4, [⟨InfoLevel, 7⟩]⟩
  ∧ AsyncLogger.WriteB
      ⟨⟨NoneLevel, MaxLevel⟩, none, [], 100, .discard⟩
      ⟨List.replicate 100 (.bytes []), 3, []⟩ [104] =
      ⟨List.replicate 100 (.bytes []), 4, []⟩ := by
  constructor
  · exact (C6_discardOnFull
      ⟨⟨NoneLevel, MaxLevel⟩, none, [], 100, .discard⟩
      ⟨List.replicate 100 (.bytes []), 3, []⟩ ⟨InfoLevel, 7⟩ [104]
      rfl (by simp)).1 (by decide)
  · exact (C6_discardOnFull
      ⟨⟨NoneLevel, MaxLevel⟩, none, [], 100, .discard⟩
      ⟨List.replicate 100 (.bytes []), 3, []⟩ ⟨InfoLevel, 7⟩ [104]
      rfl (by simp)).2

/-- C3 counterexample: the claim asserts that `AsyncLogger.Append`
enqueues the event if and only if the logger level range enables it.
With the `Discard` buffer-full policy and a full channel, the level is
enabled yet the event is dropped, so the "if" direction fails: the
universally quantified claim is false. -/
theorem C3_counterexample :
    ¬ (∀ (c : AsyncLogger) (st : AsyncState) (e : Event),
        c.Level.Enable e.level = true ↔
          AsyncItem.event e ∈ (c.Append st e).queue) := by
  intro h
  have hmem := (h ⟨⟨NoneLevel, MaxLevel⟩, none, [], 100, .discard⟩
      ⟨List.replicate 100 (.bytes []), 0, []⟩ ⟨InfoLevel, 7⟩).mp (by decide)
  have : AsyncItem.event ⟨InfoLevel, 7⟩ ∉
      (AsyncLogger.Append ⟨⟨NoneLevel, MaxLevel⟩, none, [], 100, .discard⟩
        ⟨List.replicate 100 (.bytes []), 0, []⟩ ⟨InfoLevel, 7⟩).queue := by decide
  exact this hmem

/-- C3 (amended): for every logger and event, `SyncLogger.Append`
dispatches (to appender refs directly, or once through the layout) if
and only if the level range enables the event level, and the event is
always returned to the pool; `AsyncLogger.Append` enqueues the event if
and only if the level is enabled, provided the channel is not full
(when full, the buffer-full policy decides, see C6); when the level is
not enabled the async logger only returns the event to the pool. -/
theorem C3_publishIffEnabled :
    (∀ (c : SyncLogger) (e : Event),
      ¬ (c.Append e).dispatch = .none ↔ c.Level.Enable e.level = true)
  ∧ (∀ (c : SyncLogger) (e : Event), (c.Append e).pooled = [e])
  ∧ (∀ (c : AsyncLogger) (st : AsyncState) (e : Event),
      st.queue.length < c.BufferSize → c.Level.Enable e.level = true →
      c.Append st e = { st with queue := st.queue ++ [.event e] })
  ∧ (∀ (c : AsyncLogger) (st : AsyncState) (e : Event),
      c.Level.Enable e.level = false →
      c.Append st e = { st with pooled := st.pooled ++ [e] }) := by
  refine ⟨?_, ?_, ?_, ?_⟩
  · intro c e
    by_cases hen : c.Level.Enable e.level = true
    · cases hl : c.Layout <;> simp [SyncLogger.Append, hen, hl]
    · simp only [Bool.not_eq_true] at hen
      simp [SyncLogger.Append, hen]
  · intro c e
    by_cases hen : c.Level.Enable e.level = true
    · cases hl : c.Layout <;> simp [SyncLogger.Append, hen, hl]
    · simp only [Bool.not_eq_true] at hen
      simp [SyncLogger.Append, hen]
  · intro c st e hspace hen
    simp [AsyncLogger.Append, hen, hspace]
  · intro c st e hen
    simp [AsyncLogger.Append, hen]

/-- Witness for C3 (amended), at concrete loggers: an enabled event is
dispatched by the sync logger and enqueued by a non-full async logger;
a disabled event is only pooled. -/
theorem C3_publishIffEnabled_witness :
    ¬ (SyncLogger.Append ⟨⟨WarnLevel, MaxLevel⟩, none, []⟩ ⟨ErrorLevel, 1⟩).dispatch = .none
  ∧ AsyncLogger.Append ⟨⟨NoneLevel, MaxLevel⟩, none, [], 100, .discard⟩
      ⟨[], 0, []⟩ ⟨InfoLevel, 2⟩ = ⟨[.event ⟨InfoLevel, 2⟩], 0, []⟩
  ∧ AsyncLogger.Append ⟨⟨WarnLevel, MaxLevel⟩, none, [], 100, .discard⟩
      ⟨[], 0, []⟩ ⟨InfoLevel, 3⟩ = ⟨[], 0, [⟨InfoLevel, 3⟩]⟩ := by
  refine ⟨?_, ?_, ?_⟩
  · exact (C3_publishIffEnabled.1 ⟨⟨WarnLevel, MaxLevel⟩, none, []⟩ ⟨ErrorLevel, 1⟩).mpr
      (by decide)
  · exact C3_publishIffEnabled.2.2.1 ⟨⟨NoneLevel, MaxLevel⟩, none, [], 100, .discard⟩
      ⟨[], 0, []⟩ ⟨InfoLevel, 2⟩ (by decide) (by decide)
  · exact C3_publishIffEnabled.2.2.2 ⟨⟨WarnLevel, MaxLevel⟩, none, [], 100, .discard⟩
      ⟨[], 0, []⟩ ⟨InfoLevel, 3⟩ (by decide)

theorem insertByMin_perm (r : AppenderRef) (l : List AppenderRef) :
    (insertByMin r l).Perm (r :: l) := by
  induction l with
  | nil => exact List.Perm.refl _
  | cons x xs ih =>
    simp only [insertByMin]
    split_ifs
    · exact List.Perm.refl _
    · exact (ih.cons x).trans (List.Perm.swap r x xs)

theorem sortRefsByMin_perm (l : List AppenderRef) : (sortRefsByMin l).Perm l := by
  induction l with
  | nil => exact List.Perm.refl _
  | cons x xs ih =>
    have : sortRefsByMin (x :: xs) = insertByMin x (sortRefsByMin xs) := rfl
    rw [this]
    exact (insertByMin_perm x (sortRefsByMin xs)).trans (ih.cons x)

theorem insertByMin_sorted (r : AppenderRef) (l : List AppenderRef)
    (h : SortedByMin l) : SortedByMin (insertByMin r l) := by
  induction l with
  | nil => simp [insertByMin, SortedByMin]
  | cons x xs ih =>
    simp only [insertByMin]
    rw [SortedByMin, List.pairwise_cons] at h
    split_ifs with hlt
    · rw [SortedByMin, List.pairwise_cons]
      refine ⟨?_, List.pairwise_cons.mpr h⟩
      intro b hb
      rcases List.mem_cons.mp hb with hb | hb
      · subst hb; omega
      · have := h.1 b hb; omega
    · rw [SortedByMin, List.pairwise_cons]
      refine ⟨?_, ih h.2⟩
      intro b hb
      have hb2 := (insertByMin_perm r xs).mem_iff.mp hb
      rcases List.mem_cons.mp hb2 with hb2 | hb2
      · subst hb2; omega
      · exact h.1 b hb2

theorem sortRefsByMin_sorted (l : List AppenderRef) : SortedByMin (sortRefsByMin l) := by
  induction l with
  | nil => simp [sortRefsByMin, SortedByMin]
  | cons x xs ih => exact insertByMin_sorted x (sortRefsByMin xs) ih

theorem chainMaxLevels_map_min (l : List AppenderRef) :
    (chainMaxLevels l).map (fun r => r.Level.MinLevel) =
      l.map (fun r => r.Level.MinLevel) := by
  induction l with
  | nil => rfl
  | cons r tail ih =>
    cases tail with
    | nil => rfl
    | cons s rest =>
      simp only [chainMaxLevels, List.map_cons] at ih ⊢
      rw [ih]
      split_ifs <;> rfl

/-- The per-index adjustment performed by the backward `MaxLevel` pass:
a ref followed by another keeps its `MinLevel`, and its `MaxLevel` is
replaced by the next ref's `MinLevel` exactly when it was `MaxLevel`. -/
def adjustMax (r s : AppenderRef) : AppenderRef :=
  if r.Level.MaxLevel = MaxLevel then
    { r with Level := { r.Level with MaxLevel := s.Level.MinLevel } }
  else r

theorem chainMaxLevels_get_mid (l : List AppenderRef) (i : Nat) (r s : AppenderRef)
    (hr : l[i]? = some r) (hs : l[i + 1]? = some s) :
    (chainMaxLevels l)[i]? = some (adjustMax r s) := by
  induction l generalizing i with
  | nil => simp at hr
  | cons r0 tail ih =>
    cases tail with
    | nil =>
      cases i with
      | zero => simp at hs
      | succ j => simp at hr
    | cons s0 rest =>
      cases i with
      | zero =>
        simp only [List.getElem?_cons_zero, Option.some_inj] at hr
        simp only [List.getElem?_cons_succ, List.getElem?_cons_zero,
          Option.some_inj] at hs
        subst hr
        subst hs
        simp [chainMaxLevels, adjustMax]
      | succ j =>
        rw [List.getElem?_cons_succ] at hr hs
        have := ih j hr hs
        simpa [chainMaxLevels] using this

theorem chainMaxLevels_get_last (l : List AppenderRef) (i : Nat) (r : AppenderRef)
    (hr : l[i]? = some r) (hnone : l[i + 1]? = none) :
    (chainMaxLevels l)[i]? = some r := by
  induction l generalizing i with
  | nil => simp at hr
  | cons r0 tail ih =>
    cases tail with
    | nil =>
      cases i with
      | zero =>
        simp only [List.getElem?_cons_zero, Option.some_inj] at hr
        subst hr
        rfl
      | succ j => simp at hr
    | cons s0 rest =>
      cases i with
      | zero => simp at hnone
      | succ j =>
        rw [List.getElem?_cons_succ] at hr hnone
        have := ih j hr hnone
        simpa [chainMaxLevels] using this

/-- C5: `sortByLevel` sorts the appender refs into non-decreasing order
of `MinLevel.code` (the sorting stage is a permutation of the input,
sorted by min code), and then every ref other than the last whose
`MaxLevel` equals `MaxLevel` has it replaced by the next ref's
`MinLevel` (`adjustMax`); `MinLevel` values are unchanged by the second
stage, a non-`MaxLevel` upper bound is kept, and the last ref is kept
verbatim.  (The Go loop runs backwards, but it only writes `MaxLevel`
fields and reads `MinLevel` fields, so it equals the forward pass.) -/
theorem C5_sortByLevel (rs : List AppenderRef) :
    (sortRefsByMin rs).Perm rs
  ∧ SortedByMin (sortRefsByMin rs)
  ∧ SortedByMin (sortByLevel rs)
  ∧ (sortByLevel rs).map (fun r => r.Level.MinLevel) =
      (sortRefsByMin rs).map (fun r => r.Level.MinLevel)
  ∧ (∀ (i : Nat) (r s : AppenderRef),
      (sortRefsByMin rs)[i]? = some r → (sortRefsByMin rs)[i + 1]? = some s →
      (sortByLevel rs)[i]? = some (adjustMax r s))
  ∧ (∀ (i : Nat) (r : AppenderRef),
      (sortRefsByMin rs)[i]? = some r → (sortRefsByMin rs)[i + 1]? = none →
      (sortByLevel rs)[i]? = some r) := by
  have key : ∀ l : List AppenderRef, SortedByMin l ↔
      (l.map (fun r => r.Level.MinLevel)).Pairwise
        (fun a b : Level => a.code ≤ b.code) := by
    intro l
    rw [SortedByMin, List.pairwise_map]
  have hsortedOut : SortedByMin (sortByLevel rs) := by
    rw [key]
    simp only [sortByLevel]
    rw [chainMaxLevels_map_min (sortRefsByMin rs)]
    rw [← key]
    exact sortRefsByMin_sorted rs
  refine ⟨sortRefsByMin_perm rs, sortRefsByMin_sorted rs, hsortedOut,
    chainMaxLevels_map_min (sortRefsByMin rs), ?_, ?_⟩
  · intro i r s hr hs
    exact chainMaxLevels_get_mid (sortRefsByMin rs) i r s hr hs
  · intro i r hr hnone
    exact chainMaxLevels_get_last (sortRefsByMin rs) i r hr hnone

/-- Witness for C5: two refs given in reverse min order, the lower one
with `MaxLevel` upper bound.  After `sortByLevel` the lower ref comes
first with its `MaxLevel` replaced by the next ref's `MinLevel`
(`INFO`), and the last ref is unchanged. -/
theorem C5_sortByLevel_witness :
    (sortByLevel [⟨cs "a", ⟨InfoLevel, ErrorLevel⟩⟩, ⟨cs "b", ⟨NoneLevel, MaxLevel⟩⟩])[0]? =
      some ⟨cs "b", ⟨NoneLevel, InfoLevel⟩⟩
  ∧ (sortByLevel [⟨cs "a", ⟨InfoLevel, ErrorLevel⟩⟩, ⟨cs "b", ⟨NoneLevel, MaxLevel⟩⟩])[1]? =
      some ⟨cs "a", ⟨InfoLevel, ErrorLevel⟩⟩ := by
  constructor
  · have := (C5_sortByLevel
      [⟨cs "a", ⟨InfoLevel, ErrorLevel⟩⟩, ⟨cs "b", ⟨NoneLevel, MaxLevel⟩⟩]).2.2.2.2.1
      0 ⟨cs "b", ⟨NoneLevel, MaxLevel⟩⟩ ⟨cs "a", ⟨InfoLevel, ErrorLevel⟩⟩
      (by decide) (by decide)
    simpa [adjustMax] using this
  · exact (C5_sortByLevel
      [⟨cs "a", ⟨InfoLevel, ErrorLevel⟩⟩, ⟨cs "b", ⟨NoneLevel, MaxLevel⟩⟩]).2.2.2.2.2
      1 ⟨cs "a", ⟨InfoLevel, ErrorLevel⟩⟩ (by decide) (by decide)

/-! ### Tag routing during refresh (`log_refresh.go`, `findLoggerForTag`)

The Go closure is

```
findLoggerForTag = func(tag string) Logger {
    if l, ok := cTags[tag]; ok { return l }
    tag, _ = strings.CutSuffix(tag, "_*")
    i := strings.LastIndex(tag, "_")
    if i <= 0 { return cRoot }
    tag = strings.TrimSuffix(tag[:i], "_") + "_*"
    return findLoggerForTag(tag)
}
```

Every recursive call receives a string of the form `p ++ "_*"`, for
which the `CutSuffix` always strips exactly the appended `"_*"` again.
The model therefore splits the function into the entry point
`findLoggerForTag` (arbitrary tag) and the recursive worker
`findTagGo p`, which stands for the recursive call on `p ++ "_*"` and
recurses on the strictly shorter prefix, making termination explicit
(the index returned by `LastIndex` is below the length of `p`). -/

theorem lastIndexOfChar_lt (c : Char) (l : List Char) (i : Nat)
    (h : lastIndexOfChar c l = some i) : i < l.length := by
  induction l generalizing i with
  | nil => simp [lastIndexOfChar] at h
  | cons x rest ih =>
    simp only [lastIndexOfChar] at h
    cases hrest : lastIndexOfChar c rest with
    | some j =>
      rw [hrest] at h
      injection h with h
      subst h
      have := ih j hrest
      simp
      omega
    | none =>
      rw [hrest] at h
      by_cases hx : x = c
      · simp [hx] at h
        subst h
        simp
      · simp [hx] at h

theorem trimSuffixOne_length_le (l : List Char) (c : Char) :
    (trimSuffixOne l c).length ≤ l.length := by
  simp only [trimSuffixOne]
  split_ifs
  · simp [List.length_dropLast]
  · exact le_refl _

/-- The recursive part of `findLoggerForTag`: `findTagGo ct root p`
models the recursive call `findLoggerForTag (p ++ "_*")`. -/
def findTagGo {L : Type} (ct : List Char → Option L) (root : L) (p : List Char) : L :=
  match ct (p ++ cs "_*") with
  | some l => l
  | none =>
    match hi : lastIndexOfChar '_' p with
    | none => root
    | some 0 => root
    | some (i + 1) =>
      findTagGo ct root (trimSuffixOne (p.take (i + 1)) '_')
  termination_by p.length
  decreasing_by
    have hlt := lastIndexOfChar_lt '_' p (i + 1) hi
    have hle := trimSuffixOne_length_le (p.take (i + 1)) '_'
    simp only [List.length_take] at hle
    omega

/-- Embeds the Go closure `findLoggerForTag` from `RefreshConfig`:
exact match in the configured tag table wins; otherwise strip one
trailing `"_*"`, and if the last underscore of the rest is at position
`<= 0` (absent or leading) fall back to the root logger, else recurse
on the prefix before the last underscore (with one extra trailing
underscore trimmed) plus `"_*"`. -/
def findLoggerForTag {L : Type} (ct : List Char → Option L) (root : L)
    (tag : List Char) : L :=
  match ct tag with
  | some l => l
  | none =>
    match lastIndexOfChar '_' (cutSuffixGo tag (cs "_*")) with
    | none => root
    | some 0 => root
    | some (i + 1) =>
      findTagGo ct root (trimSuffixOne ((cutSuffixGo tag (cs "_*")).take (i + 1)) '_')

/-- Sanity: the worker is exactly the entry point on `p ++ "_*"`. -/
theorem findTagGo_eq_entry {L : Type} (ct : List Char → Option L) (root : L)
    (p : List Char) : findLoggerForTag ct root (p ++ cs "_*") = findTagGo ct root p := by
  have hsuf : (cs "_*").isSuffixOf (p ++ cs "_*") = true := by
    rw [List.isSuffixOf_iff_suffix]
    exact List.suffix_append p (cs "_*")
  have hcut : cutSuffixGo (p ++ cs "_*") (cs "_*") = p := by
    simp only [cutSuffixGo, hsuf, if_true]
    simp
  rw [findLoggerForTag, findTagGo, hcut]
  cases hct : ct (p ++ cs "_*") with
  | some l => simp [hct]
  | none =>
    cases hli : lastIndexOfChar '_' p with
    | none => simp [hct, hli]
    | some i => cases i <;> simp [hct, hli]

/-- C4: during refresh the logger selected for a tag is the exact
configured tag-table entry when one exists, and otherwise the result of
walking up the underscore hierarchy (strip a trailing `_*`, repeatedly
drop the last `_segment` and try `prefix_*`), with the root logger as
the final fallback.  Consequently, for a configured prefix pattern
`_a_b_*` (and no more specific entries), the tags `_a_b_x` and
`_a_b_x_y` bind to the same logger `dst`, while `_a_c` binds to root
when not covered by another pattern. -/
theorem C4_tagRouting {L : Type} (ct : List Char → Option L) (root dst : L)
    (hpat : ct (cs "_a_b_*") = some dst)
    (h1 : ct (cs "_a_b_x") = none) (h2 : ct (cs "_a_b_x_y") = none)
    (h3 : ct (cs "_a_b_x_*") = none)
    (h4 : ct (cs "_a_c") = none) (h5 : ct (cs "_a_*") = none) :
    (∀ (t : List Char) (l : L), ct t = some l → findLoggerForTag ct root t = l)
  ∧ findLoggerForTag ct root (cs "_a_b_x") = dst
  ∧ findLoggerForTag ct root (cs "_a_b_x_y") = dst
  ∧ findLoggerForTag ct root (cs "_a_c") = root := by
  have go_ab : findTagGo ct root (cs "_a_b") = dst := by
    rw [findTagGo]
    rw [show cs "_a_b" ++ cs "_*" = cs "_a_b_*" from rfl, hpat]
  have go_abx : findTagGo ct root (cs "_a_b_x") = dst := by
    rw [findTagGo]
    rw [show cs "_a_b_x" ++ cs "_*" = cs "_a_b_x_*" from rfl, h3]
    exact go_ab
  have go_a : findTagGo ct root (cs "_a") = root := by
    rw [findTagGo]
    rw [show cs "_a" ++ cs "_*" = cs "_a_*" from rfl, h5]
    rfl
  refine ⟨?_, ?_, ?_, ?_⟩
  · intro t l h
    rw [findLoggerForTag, h]
  · rw [findLoggerForTag, h1]
    exact go_ab
  · rw [findLoggerForTag, h2]
    exact go_abx
  · rw [findLoggerForTag, h4]
    exact go_a

/-- Witness for C4: the concrete tag table holding only `_a_b_*`,
routing `_a_b_x` and `_a_b_x_y` to logger `1` and `_a_c` to root `0`. -/
theorem C4_tagRouting_witness :
    findLoggerForTag (fun t => if t = cs "_a_b_*" then some 1 else none) 0 (cs "_a_b_x") = 1
  ∧ findLoggerForTag (fun t => if t = cs "_a_b_*" then some 1 else none) 0 (cs "_a_b_x_y") = 1
  ∧ findLoggerForTag (fun t => if t = cs "_a_b_*" then some 1 else none) 0 (cs "_a_c") = 0 := by
  have h := C4_tagRouting (fun t => if t = cs "_a_b_*" then some 1 else none) 0 1
    (by decide) (by decide) (by decide) (by decide) (by decide) (by decide)
  exact ⟨h.2.1, h.2.2.1, h.2.2.2⟩

/-! ### JSON string escaping (`WriteLogString`, `src/expr/parse_test.go`)

`WriteLogString` walks the string byte-wise: ASCII bytes go through
`tryAddRuneSelf` (fast path for printable bytes, two-character escapes
for quote, backslash, `\n`, `\r`, `\t`, and `\u00XX` for the remaining
control bytes); for a non-ASCII head byte, `utf8.DecodeRuneInString`
either recognises a valid multi-byte sequence, which is copied
verbatim, or reports `RuneError` with size 1, in which case the single
bad byte becomes the six characters `�`.  The byte-level strings
are modelled as `List Nat`. -/

/-- A UTF-8 continuation byte (`0x80..0xBF`). -/
def isCont (b : Nat) : Bool := 0x80 ≤ b && b ≤ 0xBF

/-- Acceptance check `lo <= b <= hi` for the second byte of a
multi-byte sequence (Go `utf8.acceptRange`). -/
def acceptRange (lo hi b : Nat) : Bool := lo ≤ b && b ≤ hi

/-- Size of the UTF-8 sequence starting the byte list, or `none` when
the head byte is not the start of a valid sequence (where Go
`utf8.DecodeRuneInString` returns `(RuneError, 1)`).  The accept ranges
for the second byte are Go's `first`/`acceptRanges` tables: they
exclude overlong encodings, surrogates (lead `0xED` caps the second
byte at `0x9F`) and code points above `U+10FFFF` (lead `0xF4` caps it
at `0x8F`). -/
def decodeRuneSize : List Nat → Option Nat
  | [] => none
  | b0 :: rest =>
    if b0 < 0x80 then some 1
    else if 0xC2 ≤ b0 && b0 ≤ 0xDF then
      match rest with
      | b1 :: _ => if isCont b1 then some 2 else none
      | [] => none
    else if (b0 = 0xE0 || (0xE1 ≤ b0 && b0 ≤ 0xEC) || b0 = 0xED ||
             (0xEE ≤ b0 && b0 ≤ 0xEF)) then
      match rest with
      | b1 :: b2 :: _ =>
        if acceptRange (if b0 = 0xE0 then 0xA0 else 0x80)
            (if b0 = 0xED then 0x9F else 0xBF) b1 && isCont b2 then some 3
        else none
      | _ => none
    else if (b0 = 0xF0 || (0xF1 ≤ b0 && b0 ≤ 0xF3) || b0 = 0xF4) then
      match rest with
      | b1 :: b2 :: b3 :: _ =>
        if acceptRange (if b0 = 0xF0 then 0x90 else 0x80)
            (if b0 = 0xF4 then 0x8F else 0xBF) b1 && isCont b2 && isCont b3 then some 4
        else none
      | _ => none
    else none

/-- `_hex[n]` for the lowercase hex digit table `"0123456789abcdef"`. -/
def hexDigit (n : Nat) : Nat := if n < 10 then 48 + n else 87 + n

/-- The six bytes `�` written for one invalid UTF-8 byte. -/
def ufffdBytes : List Nat := [0x5C, 117, 102, 102, 102, 100]

/-- Embeds `tryAddRuneSelf` for an ASCII byte (`b < utf8.RuneSelf`):
printable non-quote non-backslash bytes are copied; quote and backslash
are backslash-escaped; `\n`, `\r`, `\t` become two-character escapes;
the remaining bytes below `0x20` become `\u00XX` with lowercase hex. -/
def escapeAsciiByte (b : Nat) : List Nat :=
  if 0x20 ≤ b ∧ b ≠ 0x5C ∧ b ≠ 0x22 then [b]
  else if b = 0x5C ∨ b = 0x22 then [0x5C, b]
  else if b = 0x0A then [0x5C, 110]
  else if b = 0x0D then [0x5C, 114]
  else if b = 0x09 then [0x5C, 116]
  else [0x5C, 117, 48, 48, hexDigit (b / 16), hexDigit (b % 16)]

theorem decodeRuneSize_pos (s : List Nat) (n : Nat) (h : decodeRuneSize s = some n) :
    1 ≤ n := by
  cases s with
  | nil => simp [decodeRuneSize] at h
  | cons b0 rest =>
    simp only [decodeRuneSize] at h
    repeat' split at h
    all_goals cases h
    all_goals omega

/-- Embeds `WriteLogString` (`src/expr/parse_test.go`): byte loop with
the ASCII fast path, `�` replacement for invalid UTF-8 bytes, and
verbatim copy of valid multi-byte sequences. -/
def WriteLogString : List Nat → List Nat
  | [] => []
  | b :: rest =>
    if b < 0x80 then escapeAsciiByte b ++ WriteLogString rest
    else
      match hd : decodeRuneSize (b :: rest) with
      | none => ufffdBytes ++ WriteLogString rest
      | some n => (b :: rest).take n ++ WriteLogString ((b :: rest).drop n)
  termination_by s => s.length
  decreasing_by
    · simp
    · simp
    · have h1 := decodeRuneSize_pos _ _ hd
      simp only [List.length_drop, List.length_cons]
      omega

/-- C7: the JSON string writer escapes exactly as follows: double quote
and backslash are backslash-escaped; newline, carriage return and tab
become the two-character escapes; every other byte below `0x20` becomes
`\u00XX` with lowercase hex digits; every invalid UTF-8 byte becomes
the six characters `�`; all other ASCII bytes and valid multi-byte
sequences are copied unchanged.  The final conjunct is the
specification's literal scenario E: the bytes
`0x80 0xC2 0xED 0xA0 0x08` emit exactly `����\u0008`. -/
theorem C7_writeLogString :
    (WriteLogString [] = [])
  ∧ (∀ (b : Nat) (s : List Nat), b = 0x22 ∨ b = 0x5C →
      WriteLogString (b :: s) = [0x5C, b] ++ WriteLogString s)
  ∧ (∀ s : List Nat, WriteLogString (10 :: s) = [0x5C, 110] ++ WriteLogString s)
  ∧ (∀ s : List Nat, WriteLogString (13 :: s) = [0x5C, 114] ++ WriteLogString s)
  ∧ (∀ s : List Nat, WriteLogString (9 :: s) = [0x5C, 116] ++ WriteLogString s)
  ∧ (∀ (b : Nat) (s : List Nat), b < 0x20 → b ≠ 9 → b ≠ 10 → b ≠ 13 →
      WriteLogString (b :: s) =
        [0x5C, 117, 48, 48, hexDigit (b / 16), hexDigit (b % 16)] ++ WriteLogString s)
  ∧ (∀ (b : Nat) (s : List Nat), 0x20 ≤ b → b < 0x80 → b ≠ 0x22 → b ≠ 0x5C →
      WriteLogString (b :: s) = b :: WriteLogString s)
  ∧ (∀ (b : Nat) (s : List Nat), 0x80 ≤ b → decodeRuneSize (b :: s) = none →
      WriteLogString (b :: s) = ufffdBytes ++ WriteLogString s)
  ∧ (∀ (b : Nat) (s : List Nat) (n : Nat), 0x80 ≤ b → decodeRuneSize (b :: s) = some n →
      WriteLogString (b :: s) = (b :: s).take n ++ WriteLogString ((b :: s).drop n))
  ∧ WriteLogString [0x80, 0xC2, 0xED, 0xA0, 0x08] =
      ufffdBytes ++ ufffdBytes ++ ufffdBytes ++ ufffdBytes ++
        [0x5C, 117, 48, 48, 48, 56] := by
  have hnil : WriteLogString [] = [] := by simp [WriteLogString]
  have hquote : ∀ (b : Nat) (s : List Nat), b = 0x22 ∨ b = 0x5C →
      WriteLogString (b :: s) = [0x5C, b] ++ WriteLogString s := by
    rintro b s (rfl | rfl) <;> (simp only [WriteLogString]; norm_num [escapeAsciiByte])
  have hnl : ∀ s : List Nat, WriteLogString (10 :: s) = [0x5C, 110] ++ WriteLogString s := by
    intro s
    simp only [WriteLogString]
    norm_num [escapeAsciiByte]
  have hcr : ∀ s : List Nat, WriteLogString (13 :: s) = [0x5C, 114] ++ WriteLogString s := by
    intro s
    simp only [WriteLogString]
    norm_num [escapeAsciiByte]
  have htab : ∀ s : List Nat, WriteLogString (9 :: s) = [0x5C, 116] ++ WriteLogString s := by
    intro s
    simp only [WriteLogString]
    norm_num [escapeAsciiByte]
  have hctrl : ∀ (b : Nat) (s : List Nat), b < 0x20 → b ≠ 9 → b ≠ 10 → b ≠ 13 →
      WriteLogString (b :: s) =
        [0x5C, 117, 48, 48, hexDigit (b / 16), hexDigit (b % 16)] ++ WriteLogString s := by
    intro b s h20 h9 h10 h13
    simp only [WriteLogString]
    rw [if_pos (by omega : b < 0x80)]
    simp only [escapeAsciiByte]
    rw [if_neg (fun hc => absurd hc.1 (by omega)),
      if_neg (by rintro (rfl | rfl) <;> omega),
      if_neg h10, if_neg h13, if_neg h9]
  have hplain : ∀ (b : Nat) (s : List Nat), 0x20 ≤ b → b < 0x80 → b ≠ 0x22 → b ≠ 0x5C →
      WriteLogString (b :: s) = b :: WriteLogString s := by
    intro b s h20 h80 hq hbs
    simp only [WriteLogString]
    rw [if_pos h80]
    simp only [escapeAsciiByte]
    rw [if_pos ⟨h20, hbs, hq⟩]
    rfl
  have hbad : ∀ (b : Nat) (s : List Nat), 0x80 ≤ b → decodeRuneSize (b :: s) = none →
      WriteLogString (b :: s) = ufffdBytes ++ WriteLogString s := by
    intro b s h80 hdec
    simp only [WriteLogString]
    rw [if_neg (by omega : ¬ b < 0x80)]
    split
    · rfl
    · rename_i n2 heq
      rw [hdec] at heq
      cases heq
  have hgood : ∀ (b : Nat) (s : List Nat) (n : Nat), 0x80 ≤ b →
      decodeRuneSize (b :: s) = some n →
      WriteLogString (b :: s) = (b :: s).take n ++ WriteLogString ((b :: s).drop n) := by
    intro b s n h80 hdec
    simp only [WriteLogString]
    rw [if_neg (by omega : ¬ b < 0x80)]
    split
    · rename_i heq
      rw [hdec] at heq
      cases heq
    · rename_i n2 heq
      rw [hdec] at heq
      injection heq with he
      subst he
      rfl
  refine ⟨hnil, hquote, hnl, hcr, htab, hctrl, hplain, hbad, hgood, ?_⟩
  rw [hbad 0x80 [0xC2, 0xED, 0xA0, 0x08] (by omega) (by decide)]
  rw [hbad 0xC2 [0xED, 0xA0, 0x08] (by omega) (by decide)]
  rw [hbad 0xED [0xA0, 0x08] (by omega) (by decide)]
  rw [hbad 0xA0 [0x08] (by omega) (by decide)]
  rw [hctrl 0x08 [] (by omega) (by omega) (by omega) (by omega)]
  rw [hnil]
  rfl

/-- Witness for C7 at concrete inputs: a quote is backslash-escaped and
an isolated continuation byte becomes `�`. -/
theorem C7_writeLogString_witness :
    WriteLogString [0x22] = [0x5C, 0x22]
  ∧ WriteLogString [0x80] = ufffdBytes := by
  constructor
  · rw [C7_writeLogString.2.1 0x22 [] (Or.inl rfl), C7_writeLogString.1]
    rfl
  · rw [C7_writeLogString.2.2.2.2.2.2.2.1 0x80 [] (by omega) (by decide),
      C7_writeLogString.1]
    rfl

/-! ### JSON encoder separator discipline (`JSONEncoder`, `src/expr/parse_test.go`) -/

/-- Embeds `JSONTokenType`. -/
inductive JSONTokenType where
  | unknown
  | objectBegin
  | objectEnd
  | arrayBegin
  | arrayEnd
  | key
  | value
  deriving DecidableEq, Repr

/-- Embeds `JSONEncoder.appendSeparator`: a comma when the last token
written is `JSONTokenObjectEnd`, `JSONTokenArrayEnd` or
`JSONTokenValue`, nothing otherwise. -/
def appendSeparator (last : JSONTokenType) : List Nat :=
  if last = .objectEnd ∨ last = .arrayEnd ∨ last = .value then [44] else []

/-- String literal to bytes (ASCII). -/
def strBytes (s : String) : List Nat := s.toList.map Char.toNat

/-- Decimal digits of a natural number, most significant first
(the digit loop of Go `strconv.FormatInt`); empty for `0`. -/
def natDigits : Nat → List Nat
  | 0 => []
  | n + 1 => natDigits ((n + 1) / 10) ++ [48 + (n + 1) % 10]
  decreasing_by exact Nat.div_lt_self (Nat.succ_pos n) (by norm_num)

/-- Model of Go `strconv.FormatInt(v, 10)` (the int64 values that occur
stay far from the overflow boundary, so `Int` stands in for `int64`). -/
def formatInt (v : Int) : List Nat :=
  if v < 0 then 45 :: natDigits (-v).toNat
  else if v = 0 then [48]
  else natDigits v.toNat

/-- One operation on the `JSONEncoder`.  Each constructor corresponds
to one `Append*` method; `AppendEncoderBegin`/`AppendEncoderEnd`
delegate to `objectBegin`/`objectEnd`.  `AppendUint64`, `AppendFloat64`
and `AppendReflect` have the same separator-then-value shape as
`int64Val` and differ only in number rendering, which is outside the
separator claim. -/
inductive JSONOp where
  | objectBegin
  | objectEnd
  | arrayBegin
  | arrayEnd
  | key (s : List Nat)
  | stringVal (s : List Nat)
  | boolVal (b : Bool)
  | int64Val (v : Int)

/-- The value stored into `enc.last` by each method. -/
def tokenAfter : JSONOp → JSONTokenType
  | .objectBegin => .objectBegin
  | .objectEnd => .objectEnd
  | .arrayBegin => .arrayBegin
  | .arrayEnd => .arrayEnd
  | .key _ => .key
  | .stringVal _ => .value
  | .boolVal _ => .value
  | .int64Val _ => .value

/-- Whether the method calls `appendSeparator` before writing its own
bytes.  In the source, `AppendObjectEnd` and `AppendArrayEnd` are the
two methods that do not. -/
def callsSeparator : JSONOp → Bool
  | .objectEnd => false
  | .arrayEnd => false
  | _ => true

/-- The bytes a method writes after the optional separator. -/
def tokenBytes : JSONOp → List Nat
  | .objectBegin => [123]
  | .objectEnd => [125]
  | .arrayBegin => [91]
  | .arrayEnd => [93]
  | .key s => [34] ++ WriteLogString s ++ [34, 58]
  | .stringVal s => [34] ++ WriteLogString s ++ [34]
  | .boolVal b => if b then strBytes "true" else strBytes "false"
  | .int64Val v => formatInt v

/-- Embeds one `JSONEncoder.Append*` call: from the last token type,
the method produces the new `enc.last` and the bytes appended to the
buffer.  Each arm mirrors the corresponding method body (optional
`appendSeparator`, set `enc.last`, write the token). -/
def jsonStep (last : JSONTokenType) (op : JSONOp) : JSONTokenType × List Nat :=
  match op with
  | .objectBegin => (.objectBegin, appendSeparator last ++ [123])
  | .objectEnd => (.objectEnd, [125])
  | .arrayBegin => (.arrayBegin, appendSeparator last ++ [91])
  | .arrayEnd => (.arrayEnd, [93])
  | .key s => (.key, appendSeparator last ++ ([34] ++ WriteLogString s ++ [34, 58]))
  | .stringVal s => (.value, appendSeparator last ++ ([34] ++ WriteLogString s ++ [34]))
  | .boolVal b =>
    (.value, appendSeparator last ++ (if b then strBytes "true" else strBytes "false"))
  | .int64Val v => (.value, appendSeparator last ++ formatInt v)

theorem natDigits_mem_digit (n : Nat) : ∀ b ∈ natDigits n, 48 ≤ b ∧ b ≤ 57 := by
  induction n using Nat.strong_induction_on with
  | _ n ih =>
    cases n with
    | zero => simp [natDigits]
    | succ m =>
      intro b hb
      simp only [natDigits, List.mem_append, List.mem_singleton] at hb
      rcases hb with hb | hb
      · exact ih ((m + 1) / 10) (Nat.div_lt_self (Nat.succ_pos m) (by norm_num)) b hb
      · subst hb
        have := Nat.mod_lt (m + 1) (show 0 < 10 by norm_num)
        omega

theorem tokenBytes_head_not_comma (op : JSONOp) : (tokenBytes op).head? ≠ some 44 := by
  cases op with
  | objectBegin => simp [tokenBytes]
  | objectEnd => simp [tokenBytes]
  | arrayBegin => simp [tokenBytes]
  | arrayEnd => simp [tokenBytes]
  | key s => simp [tokenBytes]
  | stringVal s => simp [tokenBytes]
  | boolVal b => cases b <;> simp [tokenBytes, strBytes]
  | int64Val v =>
    simp only [tokenBytes, formatInt]
    split_ifs with h1 h2
    · simp
    · simp
    · cases hh : (natDigits v.toNat).head? with
      | none => simp
      | some d =>
        have hdm : d ∈ natDigits v.toNat := by
          cases hnd : natDigits v.toNat with
          | nil => rw [hnd] at hh; cases hh
          | cons x xs =>
            rw [hnd] at hh
            injection hh with hh
            subst hh
            exact hnd ▸ List.mem_cons_self x xs
        have := natDigits_mem_digit v.toNat d hdm
        intro hc
        injection hc with hc
        omega

/-- C8 counterexample: the claim makes the comma rule apply uniformly
to all token kinds, including object-end and array-end; but
`AppendObjectEnd`/`AppendArrayEnd` never call `appendSeparator`, so
after a value token an `arrayEnd` emits `]` with no comma, refuting the
universally quantified statement. -/
theorem C8_counterexample :
    ¬ (∀ (last : JSONTokenType) (op : JSONOp),
        ((jsonStep last op).2.head? = some 44 ↔
          (last = .objectEnd ∨ last = .arrayEnd ∨ last = .value))) := by
  intro h
  have hc := (h .value .arrayEnd).mpr (Or.inr (Or.inr rfl))
  have h93 : (jsonStep JSONTokenType.value JSONOp.arrayEnd).2.head? = some 93 := rfl
  rw [h93] at hc
  injection hc with hc
  cases hc

/-- C8 (amended): a comma is emitted immediately before the token if
and only if the previously emitted token is object-end, array-end, or a
value AND the operation is one of the separator-calling kinds
(object-begin, array-begin, key, or a value); the object-end and
array-end tokens themselves are never preceded by an emitted comma.
The token body itself never starts with a comma, so the optional
leading comma in the equation is exactly "the comma emitted before the
token". -/
theorem C8_separatorRule (last : JSONTokenType) (op : JSONOp) :
    jsonStep last op =
      (tokenAfter op,
        (if callsSeparator op = true ∧
            (last = .objectEnd ∨ last = .arrayEnd ∨ last = .value)
         then [44] else []) ++ tokenBytes op)
  ∧ (tokenBytes op).head? ≠ some 44 := by
  refine ⟨?_, tokenBytes_head_not_comma op⟩
  cases op <;>
    simp only [jsonStep, tokenAfter, callsSeparator, tokenBytes, appendSeparator] <;>
    split_ifs with h1 <;>
    first
      | rfl
      | (exfalso; tauto)

/-! ### Configuration refresh (`log_refresh.go`, `RefreshConfig`)

`RefreshConfig` consumes a flattened key-to-string map
(`barky.Storage`), modelled as an association list from dotted key
paths (lists of segments) to values.  The reflective plugin engine
(`NewPlugin`) is modelled by direct attribute reads for the attributes
relevant to loggers (`type`, `level`, `tags`, `bufferSize`, a single
`appenderRef` with `ref`/`level`); appender construction is modelled as
the `type` resolution against the registered appender plugin names
(attribute/layout injection and appender `Start` I/O are elided — their
failures occur at the same stages modelled here, after the
`initialised` CAS).  The Go globals (`global`, `loggerMap`,
`tagRegistry`, `propertyRegistry`) are passed explicitly. -/

/-- The flattened configuration map: dotted key paths to values. -/
def Storage : Type := List (List (List Char) × List Char)

/-- Map lookup for a full key path. -/
def storageLookup (s : Storage) (path : List (List Char)) : Option (List Char) :=
  (s.find? (fun kv => kv.1 = path)).map Prod.snd

/-- Embeds `Storage.Has`. -/
def storageHas (s : Storage) (path : List (List Char)) : Bool :=
  (storageLookup s path).isSome

/-- Embeds `Storage.Get` (empty string when absent). -/
def storageGet (s : Storage) (path : List (List Char)) : List Char :=
  (storageLookup s path).getD []

/-- Deduplication worker keeping first occurrences. -/
def dedupKeysAux (seen : List (List Char)) : List (List Char) → List (List Char)
  | [] => []
  | x :: xs =>
    if x ∈ seen then dedupKeysAux seen xs
    else x :: dedupKeysAux (seen ++ [x]) xs

/-- Deduplicate, keeping first occurrences. -/
def dedupKeys (l : List (List Char)) : List (List Char) :=
  dedupKeysAux [] l

/-- Embeds `Storage.SubKeys(section)`: the immediate child names under
the section, or an error when the section name itself is bound to a
flat property value (barky's property conflict). -/
def subKeys (s : Storage) (sec : List Char) : Except (List Char) (List (List Char)) :=
  if storageHas s [sec] then .error (cs "property conflict")
  else
    .ok (dedupKeys (s.filterMap (fun kv =>
      match kv.1 with
      | a :: b :: _ => if a = sec then some b else none
      | _ => none)))

/-- The appender plugin names registered in `plugin_appender.go`. -/
def appenderPluginNames : List (List Char) :=
  [cs "Discard", cs "Console", cs "File", cs "RollingFile"]

/-- The logger plugin kinds registered in `plugin_logger.go`. -/
inductive LoggerKind where
  | sync
  | async
  | discard
  | console
  | file
  | rollingFile
  deriving DecidableEq, Repr

/-- Logger plugin name resolution (`pluginRegistry[PluginTypeLogger]`). -/
def loggerPluginKind (t : List Char) : Option LoggerKind :=
  if t = cs "Logger" then some .sync
  else if t = cs "AsyncLogger" then some .async
  else if t = cs "Discard" then some .discard
  else if t = cs "Console" then some .console
  else if t = cs "File" then some .file
  else if t = cs "RollingFile" then some .rollingFile
  else none

/-- The configuration of one instantiated logger plugin (the injected
fields of `LoggerBase`/`AppenderRefs`/`AsyncLogger` that the refresh
logic reads). -/
structure LoggerConf where
  kind : LoggerKind
  Name : List Char
  Tags : List Char
  Level : LevelRange
  AppenderRefs : List AppenderRef
  BufferSize : Nat
  deriving Repr

/-- Decimal parse for the `bufferSize` attribute. -/
def parseDecimalNat (l : List Char) : Except (List Char) Nat :=
  if l ≠ [] ∧ l.all (fun c => '0' ≤ c ∧ c ≤ '9') then
    .ok (l.foldl (fun acc c => acc * 10 + (c.toNat - 48)) 0)
  else .error (cs "invalid integer")

/-- Models `newPlugin`/`NewPlugin` for a logger: resolve the `type`
attribute against the plugin registry, then inject `level` (default
empty, through the registered `ParseLevelRange` converter), `tags`
(default empty), one optional `appenderRef` element with its own
`level` attribute, and `bufferSize` (default 10000, async only). -/
def newLoggerPlugin (s : Storage) (name : List Char) : Except (List Char) LoggerConf :=
  if ¬ storageHas s [cs "logger", name, cs "type"] then
    .error (cs "attribute type not found")
  else
    match loggerPluginKind (storageGet s [cs "logger", name, cs "type"]) with
    | none => .error (cs "plugin not found")
    | some kind => do
      let level ← ParseLevelRange (storageGet s [cs "logger", name, cs "level"])
      let refs ←
        if storageHas s [cs "logger", name, cs "appenderRef", cs "ref"] then do
          let rl ← ParseLevelRange
            (storageGet s [cs "logger", name, cs "appenderRef", cs "level"])
          pure [AppenderRef.mk
            (storageGet s [cs "logger", name, cs "appenderRef", cs "ref"]) rl]
        else
          pure []
      let bufSize ←
        if kind = .async then
          if storageHas s [cs "logger", name, cs "bufferSize"] then
            parseDecimalNat (storageGet s [cs "logger", name, cs "bufferSize"])
          else pure 10000
        else pure 10000
      pure ⟨kind, name, storageGet s [cs "logger", name, cs "tags"], level, refs, bufSize⟩

/-- Models appender instantiation: the `type` attribute must exist and
name a registered appender plugin. -/
def newAppenderPlugin (s : Storage) (name : List Char) : Except (List Char) Unit :=
  if ¬ storageHas s [cs "appender", name, cs "type"] then
    .error (cs "attribute type not found")
  else if storageGet s [cs "appender", name, cs "type"] ∈ appenderPluginNames then
    .ok ()
  else
    .error (cs "plugin not found")

/-- The appender-creation loop of `RefreshConfig`. -/
def createAppenders (s : Storage) : List (List Char) → Except (List Char) Unit
  | [] => .ok ()
  | name :: rest => do
    newAppenderPlugin s name
    createAppenders s rest

/-- Embeds `initAppenderRefs`: every `ref` must name a created
appender, then `sortByLevel` runs on the refs. -/
def resolveRefs (conf : LoggerConf) (appNames : List (List Char)) :
    Except (List Char) LoggerConf :=
  if conf.AppenderRefs.all (fun r => r.Ref ∈ appNames) then
    .ok { conf with AppenderRefs := sortByLevel conf.AppenderRefs }
  else
    .error (cs "appender not found")

/-- The tag-list validation loop (`log_refresh.go` lines 163-176): each
comma-separated entry is trimmed, empty entries are skipped, and an
entry containing `*` must end in `_*`. -/
def validateTags : List (List Char) → Except (List Char) (List (List Char))
  | [] => .ok []
  | t :: rest =>
    if t.contains '*' && !((cs "_*").isSuffixOf t) then
      .error (cs "tag is invalid")
    else do
      let r ← validateTags rest
      pure (t :: r)

/-- Split a `tags` attribute on commas and trim, dropping empties
(the `SplitSeq`/`TrimSpace` loop). -/
def splitTagsAttr (tags : List Char) : List (List Char) :=
  ((splitOnChar ',' tags).map trimSpaceGo).filter (fun t => t ≠ [])

/-- The duplicate-tag check and `cTags` population: a tag already bound
to a different logger is a configuration error. -/
def addTags (loggerName : List Char) (cTags : List (List Char × List Char)) :
    List (List Char) → Except (List Char) (List (List Char × List Char))
  | [] => .ok cTags
  | t :: rest =>
    match (cTags.find? (fun p => p.1 = t)).map Prod.snd with
    | some other =>
      if other ≠ loggerName then .error (cs "tag already config in another logger")
      else addTags loggerName cTags rest
    | none => addTags loggerName (cTags ++ [(t, loggerName)]) rest

/-- The logger-creation loop of `RefreshConfig`: instantiate, resolve
appender refs, and either record the root logger (whose `tags` must be
empty) or validate and register its tag patterns.  Returns all created
configurations in order, the root configuration when `logger.root` was
defined, and the configured tag table. -/
def buildLoggers (s : Storage) (appNames : List (List Char)) :
    List (List Char) → List (List Char × List Char) →
    Except (List Char) (List LoggerConf × Option LoggerConf × List (List Char × List Char))
  | [], cTags => .ok ([], none, cTags)
  | name :: rest, cTags => do
    let conf ← newLoggerPlugin s name
    let conf ← resolveRefs conf appNames
    if name = cs "root" then
      if conf.Tags ≠ [] then
        .error (cs "root logger must not define any tags")
      else do
        let (others, _, ct2) ← buildLoggers s appNames rest cTags
        pure (conf :: others, some conf, ct2)
    else do
      let tags := splitTagsAttr conf.Tags
      let tags ← validateTags tags
      if tags = [] then
        .error (cs "logger must have attribute tags")
      else do
        let ct2 ← addTags name cTags tags
        let (others, rootC, ct3) ← buildLoggers s appNames rest ct2
        pure (conf :: others, rootC, ct3)

/-- The logger `Start` loop: `AsyncLogger.Start` rejects
`bufferSize < 100`; the other logger kinds start without error
(appender `Start` I/O is out of the modelled scope). -/
def startLoggers : List LoggerConf → Except (List Char) Unit
  | [] => .ok ()
  | conf :: rest =>
    if conf.kind = .async ∧ conf.BufferSize < 100 then
      .error (cs "bufferSize is too small")
    else startLoggers rest

/-- The `loggerMap` update: every registered `LoggerWrapper` name must
match a configured logger (the `cLoggers` keys are `root` plus the
created names). -/
def checkWrappers (known : List (List Char)) : List (List Char) →
    Except (List Char) Unit
  | [] => .ok ()
  | w :: rest =>
    if w ∈ known then checkWrappers known rest
    else .error (cs "logger not found")

/-- The loop body of `toCamelKey` with the `lowerNext`/`upperNext`
flags threaded explicitly. -/
def toCamelKeyAux : List Char → Bool → Bool → List Char
  | [], _, _ => []
  | c :: rest, lowerNext, upperNext =>
    if c = '.' then c :: toCamelKeyAux rest true false
    else if c = '-' ∨ c = '_' then toCamelKeyAux rest lowerNext true
    else if lowerNext then
      (if 'A' ≤ c ∧ c ≤ 'Z' then Char.ofNat (c.toNat + 32) else c) ::
        toCamelKeyAux rest false upperNext
    else if upperNext then
      (if 'a' ≤ c ∧ c ≤ 'z' then Char.ofNat (c.toNat - 32) else c) ::
        toCamelKeyAux rest false false
    else c :: toCamelKeyAux rest false false

/-- Embeds `toCamelKey` (`log_reader.go`): lower the first character;
dots force the next character to lower case; `-`/`_` are dropped and
force the next character to upper case. -/
def toCamelKeyGo (key : List Char) : List Char :=
  match key with
  | [] => []
  | c0 :: rest =>
    (if 'A' ≤ c0 ∧ c0 ≤ 'Z' then Char.ofNat (c0.toNat + 32) else c0) ::
      toCamelKeyAux rest false false

/-- The property-injection loop: for a registered key, the value at its
camel-cased key is passed to the setter unless empty; a setter error
(`some msg`) aborts the refresh. -/
def injectProperties (s : Storage) :
    List (List Char × (List Char → Option (List Char))) → Except (List Char) Unit
  | [] => .ok ()
  | (k, f) :: rest =>
    if storageGet s [toCamelKeyGo k] = [] then injectProperties s rest
    else
      match f (storageGet s [toCamelKeyGo k]) with
      | some msg => .error msg
      | none => injectProperties s rest

/-- A logger value as seen by the tag registry: the built-in default
logger, or a configured logger identified by name. -/
inductive LoggerId where
  | default
  | named (name : List Char)
  deriving DecidableEq, Repr

/-- The Go `global` struct of `log_refresh.go`: the one-shot `init`
flag and the lists of live loggers and appenders published to
`Destroy`. -/
structure GlobalState where
  init : Bool
  loggers : List (List Char)
  appenders : List (List Char)
  deriving DecidableEq, Repr

/-- The stages of `RefreshConfig` that run after the `initialised` CAS:
appender creation, logger creation with tag validation, logger starts,
`loggerMap` binding, registered-tag binding via `findLoggerForTag`, and
property injection.  Returns the tag bindings and the names of the live
loggers on success. -/
def refreshBody (s : Storage) (appNames loggerNames : List (List Char))
    (wrappers : List (List Char)) (tagReg : List (List Char))
    (propReg : List (List Char × (List Char → Option (List Char)))) :
    Except (List Char) (List (List Char × LoggerId) × List (List Char)) := do
  createAppenders s appNames
  let (confs, rootConf, cTags) ← buildLoggers s appNames loggerNames []
  startLoggers confs
  checkWrappers (cs "root" :: loggerNames) wrappers
  let cRoot := match rootConf with
    | some _ => LoggerId.named (cs "root")
    | none => LoggerId.default
  let ct := fun t => (cTags.find? (fun p => p.1 = t)).map (fun p => LoggerId.named p.2)
  let bindings := tagReg.map (fun t => (t, findLoggerForTag ct cRoot t))
  injectProperties s propReg
  let liveLoggers :=
    if (cs "root") ∈ loggerNames then loggerNames else cs "root" :: loggerNames
  pure (bindings, liveLoggers)

/-- Embeds `RefreshConfig` (`log_refresh.go`): read the `appender.*`
and `logger.*` sections, reject an empty appender section, reject a
second refresh via the `init` flag, set the flag, and run the
remaining stages.  The returned state shows which global mutations a
failed call leaves behind: a failure before the flag check leaves the
state untouched, a failure after it leaves `init` set to true, and only
a fully successful call publishes the live logger/appender lists. -/
def RefreshConfig (g : GlobalState) (wrappers : List (List Char))
    (tagReg : List (List Char))
    (propReg : List (List Char × (List Char → Option (List Char))))
    (s : Storage) : GlobalState × Except (List Char) (List (List Char × LoggerId)) :=
  match subKeys s (cs "appender") with
  | .error e => (g, .error e)
  | .ok appNames =>
    if appNames = [] then (g, .error (cs "appenders section not found"))
    else
      match subKeys s (cs "logger") with
      | .error e => (g, .error e)
      | .ok loggerNames =>
        if g.init then (g, .error (cs "log refresh already done"))
        else
          let g1 : GlobalState := { g with init := true }
          match refreshBody s appNames loggerNames wrappers tagReg propReg with
          | .error e => (g1, .error e)
          | .ok (bindings, liveLoggers) =>
            ({ g1 with
                loggers := g1.loggers ++ liveLoggers
                appenders := g1.appenders ++ appNames },
             .ok bindings)

/-- The scenario-F configuration: one console appender, and a logger
whose `tags` attribute is `**` (invalid: contains `*` without the
`_*` suffix). -/
def c1Storage : Storage :=
  [([cs "appender", cs "console", cs "type"], cs "Console"),
   ([cs "logger", cs "myLogger", cs "type"], cs "Logger"),
   ([cs "logger", cs "myLogger", cs "tags"], cs "**"),
   ([cs "logger", cs "myLogger", cs "appenderRef", cs "ref"], cs "console")]

/-- C1 counterexample: the claim says a refresh failing on the
`tags="**"` validation error leaves the `initialised` flag false so
that a subsequent refresh is not rejected as a duplicate.  On the code,
`global.init` is set to true right after the appender and logger
sections are read and is never rolled back: the scenario-F refresh
fails with a validation error, yet the flag ends up true, and a second
refresh on the resulting state is rejected as a duplicate.  (The
repository's own tests reset the flag manually after each failing
refresh.) -/
theorem C1_counterexample :
    isError (RefreshConfig ⟨false, [], []⟩ [] [] [] c1Storage).2 = true
  ∧ (RefreshConfig ⟨false, [], []⟩ [] [] [] c1Storage).1.init = true
  ∧ isError
      (RefreshConfig (RefreshConfig ⟨false, [], []⟩ [] [] [] c1Storage).1
        [] [] [] c1Storage).2 = true := by
  decide

/-- C1 (amended): `RefreshConfig` sets the global `initialised` flag to
true immediately after the appender and logger sections have been read,
and never resets it on failure: whenever the two section reads succeed
and the appender section is non-empty, the state left behind has
`init = true` — whether the call failed later (for example on the
`tags="**"` validation) or succeeded — and any subsequent refresh on a
state with `init = true` is rejected as a duplicate.  The live
logger/appender lists, in contrast, are only published on success. -/
theorem C1_initStaysSetOnFailure (g : GlobalState)
    (wrappers tagReg : List (List Char))
    (propReg : List (List Char × (List Char → Option (List Char))))
    (s : Storage) (anames lnames : List (List Char))
    (hg : g.init = false)
    (ha : subKeys s (cs "appender") = .ok anames) (hne : anames ≠ [])
    (hl : subKeys s (cs "logger") = .ok lnames) :
    (RefreshConfig g wrappers tagReg propReg s).1.init = true
  ∧ (isError (RefreshConfig g wrappers tagReg propReg s).2 = true →
      (RefreshConfig g wrappers tagReg propReg s).1.loggers = g.loggers ∧
      (RefreshConfig g wrappers tagReg propReg s).1.appenders = g.appenders)
  ∧ (∀ g2 : GlobalState, g2.init = true →
      RefreshConfig g2 wrappers tagReg propReg s =
        (g2, .error (cs "log refresh already done"))) := by
  refine ⟨?_, ?_, ?_⟩
  · simp only [RefreshConfig, ha]
    rw [if_neg hne]
    simp only [hl, hg]
    cases hres : refreshBody s anames lnames wrappers tagReg propReg with
    | error e => simp
    | ok r => simp
  · intro herr
    simp only [RefreshConfig, ha] at herr ⊢
    rw [if_neg hne] at herr ⊢
    simp only [hl, hg] at herr ⊢
    cases hres : refreshBody s anames lnames wrappers tagReg propReg with
    | error e => simp
    | ok r =>
      rw [hres] at herr
      simp [isError] at herr
  · intro g2 h2
    simp only [RefreshConfig, ha]
    rw [if_neg hne]
    simp only [hl, h2]
    rfl

/-- Witness for C1 (amended) at the scenario-F storage: the section
reads succeed with a non-empty appender list, and the resulting state
has `init = true` with untouched logger/appender lists. -/
theorem C1_initStaysSetOnFailure_witness :
    (RefreshConfig ⟨false, [cs "w"], []⟩ [] [] [] c1Storage).1.init = true
  ∧ (RefreshConfig ⟨false, [cs "w"], []⟩ [] [] [] c1Storage).1.loggers = [cs "w"]
  ∧ RefreshConfig ⟨true, [], []⟩ [] [] [] c1Storage =
      (⟨true, [], []⟩, .error (cs "log refresh already done")) := by
  have h := C1_initStaysSetOnFailure ⟨false, [cs "w"], []⟩ [] [] [] c1Storage
    [cs "console"] [cs "myLogger"] rfl (by decide) (by decide) (by decide)
  refine ⟨h.1, ?_, h.2.2 ⟨true, [], []⟩ rfl⟩
  exact (h.2.1 (by decide)).1

end GoSpringLog
